/-
Verification of the Ragout core modules against their specification.

The embedding translates the following source files:
  * ragout/breakpoint_graph/phylogeny.py  (weighted half-breakpoint parsimony)
  * ragout/main.py                        (pipeline driver, run stages)
  * ragout/overlap/overlap.py             (external overlap tool wrapper)

Modelling conventions:
  * Python floats become real numbers.
  * `float("inf")` and the min/plus arithmetic of the Sankoff dynamic program
    are modelled in `WithTop ℝ` (addition with `⊤` is absorbing, exactly like
    IEEE `inf + x`; no `inf - inf` ever occurs in the source).
  * A half-breakpoint state is an `Option ℕ`; `none` is the null/unassigned
    state (Python `None`).
  * The `leaf_states` dictionary becomes an association list
    `List (ℕ × Option ℕ)` looked up with `List.lookup`; a Python `KeyError`
    at a leaf is modelled as a `⊤` row (claims only use trees whose leaves
    are all keys of the mapping).
  * Python's `set(leaf_states.values())` becomes `List.dedup` of the list of
    values; `min` over an iterable starting from `float("inf")` becomes
    `listMin = foldr min ⊤`, which also matches the source when the iterable
    is empty.
-/
import Mathlib

noncomputable section

/-- A parsed phylogenetic tree as produced by `parse_tree`: a terminal node
carries a leaf identifier, a non-terminal node carries the list of its edges,
each edge being a child together with its branch length (the source asserts
every branch length is present). Bootstrap values are never used by the
translated code and are omitted. -/
inductive PhyloTree where
  | leaf (id : ℕ)
  | node (edges : List (PhyloTree × ℝ))

/-- Minimum of a list of extended reals, starting from `⊤`; this is Python's
`min_score = float("inf"); for ...: min_score = min(min_score, ...)` pattern,
and also `min(iterable)` when the iterable is known to be non-empty. -/
def listMin (l : List (WithTop ℝ)) : WithTop ℝ :=
  l.foldr min ⊤

/-- `branch_score` from `Phylogeny.estimate_tree` (phylogeny.py, lines 57-64):
0 when the parent state equals the child state or the child state is `None`,
otherwise `1.0 + math.exp(-self.mu * max(branch, 0.0000001))`. -/
def branch_score (mu : ℝ) (parent child : Option ℕ) (branch : ℝ) : ℝ :=
  if parent = child ∨ child = none then 0
  else 1 + Real.exp (-mu * max branch 0.0000001)

/-- `all_states = set(leaf_states.values())` (phylogeny.py, line 54). -/
def allStates (leafStates : List (ℕ × Option ℕ)) : List (Option ℕ) :=
  (leafStates.map Prod.snd).dedup

mutual

/-- `rec_helper` from `Phylogeny.estimate_tree` (phylogeny.py, lines 67-88),
as a function of the queried state: for a terminal node the row of the score
table is 0 at the observed state and `inf` elsewhere; for a non-terminal node
the row accumulates, over the node's edges, the minimum over child states of
(child row + branch score).  The Python accumulation
`root_scores[root_state] += min_score` over the edge list is the fold
`edges_score`. -/
def rec_helper (mu : ℝ) (ls : List (ℕ × Option ℕ)) (S : List (Option ℕ)) :
    PhyloTree → Option ℕ → WithTop ℝ
  | .leaf id, s => if ls.lookup id = some s then 0 else ⊤
  | .node edges, p => edges_score mu ls S edges p

/-- The per-edge accumulation inside `rec_helper`: each edge contributes
`min(child_row[c] + branch_score(p, c, length) for c in all_states)`. -/
def edges_score (mu : ℝ) (ls : List (ℕ × Option ℕ)) (S : List (Option ℕ)) :
    List (PhyloTree × ℝ) → Option ℕ → WithTop ℝ
  | [], _ => 0
  | (c, len) :: rest, p =>
      listMin (S.map fun cs =>
        rec_helper mu ls S c cs + (branch_score mu p cs len : WithTop ℝ)) +
      edges_score mu ls S rest p

end

/-- `Phylogeny.estimate_tree` (phylogeny.py, lines 50-90):
`min(rec_helper(self.tree).values())`, the minimum of the root score table
over `all_states`.  (For a childless non-terminal root Python would raise on
`min([])`; no claim involves such a tree.) -/
def estimate_tree (mu : ℝ) (ls : List (ℕ × Option ℕ)) (t : PhyloTree) : WithTop ℝ :=
  listMin ((allStates ls).map fun p => rec_helper mu ls (allStates ls) t p)

mutual

/-- `tree_length` from `Phylogeny._scale_branches` (phylogeny.py, lines 33-43):
collects every branch length of the tree (for each edge, the edge's length
followed by the lengths of the child subtree). -/
def tree_length : PhyloTree → List ℝ
  | .leaf _ => []
  | .node edges => edges_length edges

/-- The edge loop of `tree_length`. -/
def edges_length : List (PhyloTree × ℝ) → List ℝ
  | [] => []
  | (c, len) :: rest => len :: (tree_length c ++ edges_length rest)

end

/-- `_median` (phylogeny.py, lines 107-109): the element of the sorted list at
0-based index `(len(values) - 1) / 2`, with Python-2 integer division. -/
def _median (values : List ℝ) : ℝ :=
  (values.insertionSort (· ≤ ·)).getD ((values.length - 1) / 2) 0

/-- The scaling coefficient computed by `Phylogeny._scale_branches`
(phylogeny.py, line 47): `self.mu = float(1) / _median(lengths)`. -/
def phylo_mu (t : PhyloTree) : ℝ :=
  1 / _median (tree_length t)

/-! ### Full labelings of a tree (for the dynamic-programming claims)

A labeling decorates every node of a `PhyloTree` with a state.  Its cost is
the sum of the leaf costs (0 at the observed state, `inf` elsewhere) and of
the branch scores along every edge — the objective that the Sankoff dynamic
program of `estimate_tree` minimises. -/

/-- A tree in which every node carries a chosen state. -/
inductive LTree where
  | leaf (id : ℕ) (state : Option ℕ)
  | node (state : Option ℕ) (children : List (LTree × ℝ))

/-- The state a labeling assigns to its root node. -/
def rootState : LTree → Option ℕ
  | .leaf _ s => s
  | .node s _ => s

mutual

/-- Total cost of a labeling: leaf cost at the leaves plus, for every edge,
the branch score from the parent's state to the child's state. -/
def ltreeCost (mu : ℝ) (ls : List (ℕ × Option ℕ)) : LTree → WithTop ℝ
  | .leaf id s => if ls.lookup id = some s then 0 else ⊤
  | .node p children => childrenCost mu ls p children

/-- Cost contributed by a list of labelled children of a node in state `p`. -/
def childrenCost (mu : ℝ) (ls : List (ℕ × Option ℕ)) (p : Option ℕ) :
    List (LTree × ℝ) → WithTop ℝ
  | [] => 0
  | (lc, len) :: rest =>
      (ltreeCost mu ls lc + (branch_score mu p (rootState lc) len : WithTop ℝ)) +
      childrenCost mu ls p rest

end

mutual

/-- All labelings of a tree whose root is assigned the state `p` and all of
whose node states are drawn from the list `S`. -/
def labelingsAt (S : List (Option ℕ)) : PhyloTree → Option ℕ → List LTree
  | .leaf id, p => [.leaf id p]
  | .node edges, p => (childLabelings S edges).map (.node p)

/-- All ways of labelling a list of child subtrees, each child getting any
root state from `S`. -/
def childLabelings (S : List (Option ℕ)) :
    List (PhyloTree × ℝ) → List (List (LTree × ℝ))
  | [] => [[]]
  | (c, len) :: rest =>
      (S.flatMap fun s => labelingsAt S c s).flatMap fun lc =>
        (childLabelings S rest).map fun lrest => (lc, len) :: lrest

end

/-- All labelings of a tree with every node state drawn from `S`. -/
def labelings (S : List (Option ℕ)) (t : PhyloTree) : List LTree :=
  S.flatMap fun p => labelingsAt S t p

/-! ### Pipeline driver (main.py) -/

/-- The `RunStage` namedtuple (main.py, lines 49-50). -/
structure RunStage where
  name : String
  block_size : ℕ
  indels : Bool
  repeats : Bool
  rearrange : Bool
  refine : Bool
deriving DecidableEq, Repr

/-- `make_run_stages` (main.py, lines 106-114): one stage per block size with
`indels=False, repeats=False, rearrange=True, refine=False`, then a final
stage named "refine" reusing `block_sizes[-1]` with `indels=True,
repeats=resolve_repeats, rearrange=False, refine=True`.  (On an empty list
Python would raise an IndexError at `block_sizes[-1]`; the default 0 below is
never referred to by a theorem.) -/
def make_run_stages (block_sizes : List ℕ) (resolve_repeats : Bool) : List RunStage :=
  (block_sizes.map fun block => ⟨toString block, block, false, false, true, false⟩) ++
  [⟨"refine", block_sizes.getLast?.getD 0, true, resolve_repeats, false, true⟩]

/-- The exception kinds of the program.  The first six are the typed error
kinds of the except clause in `run_ragout` (main.py, lines 97-98); the rest
model any other Python exception that the body may raise. -/
inductive PyError where
  | recipeExc
  | phyloExc
  | permExc
  | backendExc
  | overlapExc
  | fastaErr
  | keyErr
  | assertionErr
  | zeroDivisionErr
  | otherExc
deriving DecidableEq, Repr

/-- Membership in the tuple of exception types caught by `run_ragout`:
`(RecipeException, PhyloException, PermException, BackendException,
OverlapException, FastaError)`. -/
def recognized : PyError → Bool
  | .recipeExc => true
  | .phyloExc => true
  | .permExc => true
  | .backendExc => true
  | .overlapExc => true
  | .fastaErr => true
  | _ => false

/-- `run_ragout` (main.py, lines 91-103).  The outcome of the call
`run_unsafe(args)` is the input: `.ok ()` when it returns, `.error e` when it
raises `e`.  The wrapper returns 0 on success, returns 1 after catching one
of the six recognized exception types, and lets any other exception
propagate (modelled as `.error e`). -/
def run_ragout (run_unsafe_outcome : Except PyError Unit) : Except PyError ℕ :=
  match run_unsafe_outcome with
  | .ok _ => .ok 0
  | .error e => if recognized e then .ok 1 else .error e

/-! ### Phylogeny construction (spec-modelled validation) -/

mutual

/-- Whether some branch of the tree has a non-positive length. -/
def has_nonpositive_branch : PhyloTree → Bool
  | .leaf _ => false
  | .node edges => edges_nonpositive edges

/-- The edge traversal of `has_nonpositive_branch`. -/
def edges_nonpositive : List (PhyloTree × ℝ) → Bool
  | [] => false
  | (c, len) :: rest =>
      decide (len ≤ 0) || has_nonpositive_branch c || edges_nonpositive rest

end

/-- Modelled from the spec: `Phylogeny.__init__` (phylogeny.py, lines 23-26)
first calls `parse_tree` from `ragout.parsers.phylogeny_parser`, a module that
is not part of the provided sources; the spec states that a PhylogenyError
covers "unparseable tree; target genome not a leaf; non-positive branch
length" and that core components fail fast at their entry point.  Parsing
itself is out of scope here, so construction is modelled on an
already-structured tree: it surfaces the typed error when some branch length
is non-positive and otherwise completes, computing the scaling coefficient
of `_scale_branches`. -/
def Phylogeny_init (t : PhyloTree) : Except PyError ℝ :=
  if has_nonpositive_branch t then .error .phyloExc else .ok (phylo_mu t)

/-! ### Overlap wrapper (overlap.py) -/

/-- `make_overlap_graph` (overlap.py, lines 16-34).  The environment is
abstracted by two booleans: whether `which(OVERLAP_EXEC)` finds the binary,
and whether `subprocess.check_call` succeeds.  The function logs and returns
`False` when the binary is missing, logs and returns `False` when the
subprocess raises `CalledProcessError`, and returns `True` otherwise; it
raises nothing. -/
def make_overlap_graph (tool_found : Bool) (subprocess_ok : Bool) :
    Except PyError Bool :=
  if !tool_found then .ok false
  else if !subprocess_ok then .ok false
  else .ok true

/-! ### Concrete star-tree inputs -/

/-- A star tree: a root whose children are all leaves, every branch having
the same length `l`.  The leaves and their observed states are given as a
list of (leaf id, state) pairs. -/
def starTree (l : ℝ) (pairs : List (ℕ × ℕ)) : PhyloTree :=
  .node (pairs.map fun pr => (.leaf pr.1, l))

/-- The leaf-state mapping of a star tree: each leaf observes its own
(non-null) state. -/
def starLS (pairs : List (ℕ × ℕ)) : List (ℕ × Option ℕ) :=
  pairs.map fun pr => (pr.1, some pr.2)

/-- Four leaves, two distinct states, each state observed twice. -/
def cexPairs : List (ℕ × ℕ) :=
  [(0, 0), (1, 0), (2, 1), (3, 1)]

/-! ### Lemmas about listMin -/

theorem listMin_nil : listMin [] = ⊤ :=
  rfl

theorem listMin_cons (a : WithTop ℝ) (l : List (WithTop ℝ)) :
    listMin (a :: l) = min a (listMin l) :=
  rfl

theorem listMin_singleton (a : WithTop ℝ) : listMin [a] = a := by
  simp [listMin]

theorem listMin_append (l₁ l₂ : List (WithTop ℝ)) :
    listMin (l₁ ++ l₂) = min (listMin l₁) (listMin l₂) := by
  induction l₁ with
  | nil => simp [listMin_nil, listMin]
  | cons a l ih => simp [listMin_cons, ih, min_assoc]

theorem listMin_map_add_right {α : Type} (L : List α) (f : α → WithTop ℝ)
    (c : WithTop ℝ) :
    listMin (L.map f) + c = listMin (L.map fun a => f a + c) := by
  induction L with
  | nil => simp [listMin_nil]
  | cons a L ih => simp [listMin_cons, ← ih, ← min_add_add_right]

theorem listMin_map_add_left {α : Type} (c : WithTop ℝ) (L : List α)
    (g : α → WithTop ℝ) :
    c + listMin (L.map g) = listMin (L.map fun a => c + g a) := by
  induction L with
  | nil => simp [listMin_nil]
  | cons a L ih => simp [listMin_cons, ← ih, ← min_add_add_left]

theorem listMin_flatMap {α : Type} (L : List α) (g : α → List (WithTop ℝ)) :
    listMin (L.flatMap g) = listMin (L.map fun a => listMin (g a)) := by
  induction L with
  | nil => simp [listMin_nil]
  | cons a L ih => simp [listMin_cons, listMin_append, ih]

theorem listMin_flatMap_add {α β : Type} (A : List α) (B : List β)
    (f : α → WithTop ℝ) (g : β → WithTop ℝ) :
    listMin (A.flatMap fun a => B.map fun b => f a + g b)
      = listMin (A.map f) + listMin (B.map g) := by
  rw [listMin_flatMap, listMin_map_add_right]
  exact congrArg listMin (List.map_congr_left fun a _ => (listMin_map_add_left (f a) B g).symm)

theorem listMin_le_of_mem {a : WithTop ℝ} {L : List (WithTop ℝ)} (h : a ∈ L) :
    listMin L ≤ a := by
  induction L with
  | nil => cases h
  | cons b L ih =>
      rcases List.mem_cons.mp h with h | h
      · subst h; exact min_le_left _ _
      · exact le_trans (min_le_right _ _) (ih h)

theorem le_listMin {c : WithTop ℝ} {L : List (WithTop ℝ)}
    (h : ∀ a ∈ L, c ≤ a) : c ≤ listMin L := by
  induction L with
  | nil => exact le_top
  | cons b L ih =>
      exact le_min (h b (List.mem_cons_self b L))
        (ih fun a ha => h a (List.mem_cons_of_mem b ha))

theorem listMin_const {v : WithTop ℝ} {L : List (WithTop ℝ)}
    (hne : L ≠ []) (h : ∀ a ∈ L, a = v) : listMin L = v := by
  induction L with
  | nil => exact absurd rfl hne
  | cons b L ih =>
      rcases L with _ | ⟨b', L'⟩
      · rw [listMin_singleton, h b (List.mem_cons_self b _)]
      · rw [listMin_cons, h b (List.mem_cons_self b _),
          ih (List.cons_ne_nil _ _) fun a ha => h a (List.mem_cons_of_mem b ha),
          min_self]

theorem listMin_or_top {v : WithTop ℝ} {L : List (WithTop ℝ)}
    (h : ∀ a ∈ L, a = v ∨ a = ⊤) : listMin L = v ∨ listMin L = ⊤ := by
  induction L with
  | nil => exact Or.inr rfl
  | cons b L ih =>
      rw [listMin_cons]
      rcases h b (List.mem_cons_self b L) with hb | hb <;>
        rcases ih (fun a ha => h a (List.mem_cons_of_mem b ha)) with hL | hL <;>
        subst hb <;> rw [hL] <;> simp [min_self]

theorem listMin_map_ite {α : Type} [DecidableEq α] {L : List α} {c₀ : α}
    {v : WithTop ℝ} (hmem : c₀ ∈ L) (hv : v ≠ ⊤) :
    listMin (L.map fun c => if c = c₀ then v else ⊤) = v := by
  have hall : ∀ a ∈ L.map fun c => if c = c₀ then v else ⊤, a = v ∨ a = ⊤ := by
    intro a ha
    rcases List.mem_map.mp ha with ⟨c, _, rfl⟩
    by_cases hc : c = c₀ <;> simp [hc]
  have hle : listMin (L.map fun c => if c = c₀ then v else ⊤) ≤ v := by
    refine listMin_le_of_mem (List.mem_map.mpr ⟨c₀, hmem, ?_⟩)
    simp
  rcases listMin_or_top hall with h | h
  · exact h
  · rw [h] at hle
    exact absurd (top_le_iff.mp hle) hv

/-! ### Lemmas about the dynamic program -/

/-- A successful lookup pins an element of the association list. -/
theorem lookup_mem {ls : List (ℕ × Option ℕ)} {k : ℕ} {v : Option ℕ}
    (h : ls.lookup k = some v) : (k, v) ∈ ls := by
  induction ls with
  | nil => cases h
  | cons e rest ih =>
      rcases e with ⟨k', v'⟩
      rw [List.lookup_cons] at h
      by_cases hk : k = k'
      · subst hk
        simp only [beq_self_eq_true, if_true, Option.some.injEq] at h
        subst h
        exact List.mem_cons_self _ _
      · rw [beq_false_of_ne hk] at h
        exact List.mem_cons_of_mem _ (ih h)

/-- The fold `edges_score` is the sum, over the edge list, of the per-edge
minima — the shape of the Sankoff recurrence. -/
theorem edges_score_eq_sum (mu : ℝ) (ls : List (ℕ × Option ℕ))
    (S : List (Option ℕ)) (es : List (PhyloTree × ℝ)) (p : Option ℕ) :
    edges_score mu ls S es p
      = (es.map fun e => listMin (S.map fun c =>
          rec_helper mu ls S e.1 c + (branch_score mu p c e.2 : WithTop ℝ))).sum := by
  induction es with
  | nil => simp [edges_score]
  | cons e rest ih =>
      rcases e with ⟨c, len⟩
      rw [edges_score, ih]
      simp

/-- Every labeling produced by `labelingsAt S t p` has root state `p`. -/
theorem rootState_labelingsAt {S : List (Option ℕ)} {t : PhyloTree}
    {p : Option ℕ} {lt : LTree} (h : lt ∈ labelingsAt S t p) :
    rootState lt = p := by
  cases t with
  | leaf id =>
      rw [labelingsAt] at h
      rw [List.mem_singleton.mp h]
      rfl
  | node edges =>
      rw [labelingsAt] at h
      rcases List.mem_map.mp h with ⟨lcs, _, rfl⟩
      rfl

mutual

/-- Correctness of the Sankoff dynamic program: the score table row computed
by `rec_helper` at state `p` is the minimum cost over all labelings of the
subtree whose root is assigned `p` and whose node states come from `S`. -/
theorem rec_correct (mu : ℝ) (ls : List (ℕ × Option ℕ)) (S : List (Option ℕ))
    (t : PhyloTree) (p : Option ℕ) :
    rec_helper mu ls S t p
      = listMin ((labelingsAt S t p).map (ltreeCost mu ls)) := by
  cases t with
  | leaf id =>
      rw [rec_helper, labelingsAt]
      simp [listMin_singleton, ltreeCost]
  | node edges =>
      rw [rec_helper, labelingsAt, edges_correct mu ls S edges p]
      simp only [List.map_map, Function.comp_def, ltreeCost]

/-- The edge fold of the dynamic program is the minimum, over all ways of
labelling the child subtrees with states from `S`, of the cost those
children contribute to a parent in state `p`. -/
theorem edges_correct (mu : ℝ) (ls : List (ℕ × Option ℕ)) (S : List (Option ℕ))
    (es : List (PhyloTree × ℝ)) (p : Option ℕ) :
    edges_score mu ls S es p
      = listMin ((childLabelings S es).map fun lcs => childrenCost mu ls p lcs) := by
  cases es with
  | nil =>
      rw [edges_score, childLabelings]
      simp [listMin_singleton, childrenCost]
  | cons e rest =>
      rcases e with ⟨c, len⟩
      rw [edges_score, childLabelings, edges_correct mu ls S rest p]
      have h1 : (S.map fun cs =>
            rec_helper mu ls S c cs + (branch_score mu p cs len : WithTop ℝ))
          = S.map fun cs => listMin ((labelingsAt S c cs).map fun lt =>
              ltreeCost mu ls lt
                + (branch_score mu p (rootState lt) len : WithTop ℝ)) := by
        refine List.map_congr_left fun cs _ => ?_
        rw [rec_correct mu ls S c cs, listMin_map_add_right]
        refine congrArg listMin (List.map_congr_left fun lt hlt => ?_)
        rw [rootState_labelingsAt hlt]
      rw [h1,
        ← listMin_flatMap S fun cs => (labelingsAt S c cs).map fun lt =>
          ltreeCost mu ls lt + (branch_score mu p (rootState lt) len : WithTop ℝ),
        ← List.map_flatMap, ← listMin_flatMap_add]
      simp only [List.map_flatMap, List.map_map, Function.comp_def, childrenCost]

end

/-- C1: the branch cost used by the parsimony scorer is 0 when the parent
state equals the child state or the child state is the null state, and
otherwise equals `1 + exp(-mu * max(l, 1e-7))`. -/
theorem branch_score_cases (mu : ℝ) (p c : Option ℕ) (l : ℝ) :
    (p = c → branch_score mu p c l = 0) ∧
    (c = none → branch_score mu p c l = 0) ∧
    (p ≠ c → c ≠ none →
      branch_score mu p c l = 1 + Real.exp (-mu * max l 0.0000001)) := by
  refine ⟨fun h => ?_, fun h => ?_, fun h1 h2 => ?_⟩
  · simp [branch_score, h]
  · simp [branch_score, h]
  · simp [branch_score, h1, h2]

theorem branch_score_cases_witness :
    ((some 0 : Option ℕ) ≠ some 1) ∧ ((some 1 : Option ℕ) ≠ none) ∧
    branch_score 1 (some 0) (some 1) 2 = 1 + Real.exp (-1 * max 2 0.0000001) :=
  ⟨by decide, by decide,
    (branch_score_cases 1 (some 0) (some 1) 2).2.2 (by decide) (by decide)⟩

/-- C2: `estimate_tree` computes the Sankoff dynamic program over the state
set `allStates`: a leaf row is 0 at the observed state and infinite
elsewhere; an internal row is the sum over children of the minimum over
child states of (child row + branch cost); the result is the minimum of the
root row over the states. -/
theorem estimate_tree_sankoff (mu : ℝ) (ls : List (ℕ × Option ℕ)) :
    (∀ id s obs, ls.lookup id = some obs →
      rec_helper mu ls (allStates ls) (.leaf id) s
        = if s = obs then (0 : WithTop ℝ) else ⊤) ∧
    (∀ edges p, rec_helper mu ls (allStates ls) (.node edges) p
        = (edges.map fun e => listMin ((allStates ls).map fun c =>
            rec_helper mu ls (allStates ls) e.1 c
              + (branch_score mu p c e.2 : WithTop ℝ))).sum) ∧
    (∀ t, estimate_tree mu ls t
        = listMin ((allStates ls).map fun p =>
            rec_helper mu ls (allStates ls) t p)) := by
  refine ⟨fun id s obs h => ?_, fun edges p => ?_, fun t => rfl⟩
  · rw [rec_helper, h]
    by_cases hs : s = obs
    · subst hs; simp
    · simp [hs, Ne.symm hs]
  · rw [rec_helper]
    exact edges_score_eq_sum mu ls (allStates ls) edges p

theorem estimate_tree_sankoff_witness :
    List.lookup 0 [(0, some 1)] = some (some 1) ∧
    rec_helper 1 [(0, some 1)] (allStates [(0, some 1)]) (.leaf 0) (some 1)
      = if (some 1 : Option ℕ) = some 1 then (0 : WithTop ℝ) else ⊤ :=
  ⟨rfl, (estimate_tree_sankoff 1 [(0, some 1)]).1 0 (some 1) (some 1) rfl⟩

/-- C3: after construction the scaling coefficient equals 1 divided by the
lower median of the multiset of all branch lengths — the element at 0-based
index `(n-1) div 2` of any sorted arrangement of that multiset. -/
theorem mu_lower_median (t : PhyloTree) (s : List ℝ)
    (hperm : s.Perm (tree_length t)) (hsort : s.Sorted (· ≤ ·)) :
    phylo_mu t = 1 / s.getD (((tree_length t).length - 1) / 2) 0 := by
  have h1 : List.insertionSort (· ≤ ·) (tree_length t) = s :=
    List.eq_of_perm_of_sorted ((List.perm_insertionSort _ _).trans hperm.symm)
      (List.sorted_insertionSort _ _) hsort
  unfold phylo_mu _median
  rw [h1]

theorem mu_lower_median_witness :
    (([1, 2] : List ℝ).Perm (tree_length (.node [(.leaf 0, 1), (.leaf 1, 2)])) ∧
      ([1, 2] : List ℝ).Sorted (· ≤ ·)) ∧
    phylo_mu (.node [(.leaf 0, 1), (.leaf 1, 2)])
      = 1 / ([1, 2] : List ℝ).getD
          (((tree_length (.node [(.leaf 0, 1), (.leaf 1, 2)])).length - 1) / 2) 0 := by
  have ht : tree_length (PhyloTree.node [(.leaf 0, 1), (.leaf 1, 2)]) = [1, 2] := by
    simp [tree_length, edges_length]
  have h1 : ([1, 2] : List ℝ).Perm
      (tree_length (PhyloTree.node [(.leaf 0, 1), (.leaf 1, 2)])) :=
    ht ▸ List.Perm.refl _
  have h2 : ([1, 2] : List ℝ).Sorted (· ≤ ·) := by
    norm_num [List.sorted_cons]
  exact ⟨⟨h1, h2⟩, mu_lower_median _ [1, 2] h1 h2⟩

/-- C5: on a single-leaf phylogeny the parsimony score table assigns 0 to
the queried state when it matches the leaf's observed label and infinity
otherwise; consequently the minimum reported by `estimate_tree` is 0. -/
theorem single_leaf_parsimony (mu : ℝ) (ls : List (ℕ × Option ℕ)) (id : ℕ)
    (s obs : Option ℕ) (h : ls.lookup id = some obs) :
    rec_helper mu ls (allStates ls) (.leaf id) s
      = (if s = obs then (0 : WithTop ℝ) else ⊤) ∧
    estimate_tree mu ls (.leaf id) = 0 := by
  constructor
  · rw [rec_helper, h]
    by_cases hs : s = obs
    · subst hs; simp
    · simp [hs, Ne.symm hs]
  · have hobs : obs ∈ allStates ls := by
      unfold allStates
      exact List.mem_dedup.mpr (List.mem_map.mpr ⟨(id, obs), lookup_mem h, rfl⟩)
    apply le_antisymm
    · have hle : listMin ((allStates ls).map fun p =>
          rec_helper mu ls (allStates ls) (.leaf id) p)
            ≤ rec_helper mu ls (allStates ls) (.leaf id) obs :=
        listMin_le_of_mem (List.mem_map.mpr ⟨obs, hobs, rfl⟩)
      rw [rec_helper, h] at hle
      simpa [estimate_tree] using hle
    · refine le_listMin fun a ha => ?_
      rcases List.mem_map.mp ha with ⟨p, _, rfl⟩
      rw [rec_helper]
      split
      · exact le_refl _
      · exact le_top

theorem single_leaf_parsimony_witness :
    List.lookup 0 [(0, some 1)] = some (some 1) ∧
    (rec_helper 1 [(0, some 1)] (allStates [(0, some 1)]) (.leaf 0) (some 0)
      = (if (some 0 : Option ℕ) = some 1 then (0 : WithTop ℝ) else ⊤) ∧
     estimate_tree 1 [(0, some 1)] (.leaf 0) = 0) :=
  ⟨rfl, single_leaf_parsimony 1 [(0, some 1)] 0 (some 0) (some 1) rfl⟩

/-- C6: the score returned by `estimate_tree` is the minimum cost over the
full labelings of the tree all of whose node states are drawn from the set
of states occurring among the given leaf states; no state outside that set
is a candidate for an internal node or the root. -/
theorem estimate_tree_min_labelings (mu : ℝ) (ls : List (ℕ × Option ℕ))
    (t : PhyloTree) :
    estimate_tree mu ls t
      = listMin ((labelings (allStates ls) t).map (ltreeCost mu ls)) := by
  unfold estimate_tree labelings
  rw [List.map_flatMap, listMin_flatMap]
  exact congrArg listMin
    (List.map_congr_left fun p _ => rec_correct mu ls (allStates ls) t p)

/-- C7: the driver returns exit code 0 when `run_unsafe` succeeds; when it
raises one of the six recognized typed error kinds the driver catches it and
returns the non-zero code 1; any other exception propagates uncaught. -/
theorem run_ragout_exits :
    (∀ u : Unit, run_ragout (.ok u) = .ok 0) ∧
    (∀ e, recognized e = true → run_ragout (.error e) = .ok 1) ∧
    (∀ e, recognized e = false → run_ragout (.error e) = .error e) ∧
    (1 : ℕ) ≠ 0 := by
  refine ⟨fun u => rfl, fun e he => ?_, fun e he => ?_, one_ne_zero⟩ <;>
    simp [run_ragout, he]

theorem run_ragout_exits_witness :
    recognized .phyloExc = true ∧ run_ragout (.error .phyloExc) = .ok 1 ∧
    recognized .keyErr = false ∧ run_ragout (.error .keyErr) = .error .keyErr :=
  ⟨rfl, run_ragout_exits.2.1 .phyloExc rfl, rfl,
    run_ragout_exits.2.2.1 .keyErr rfl⟩

/-- C8: constructing a Phylogeny from a tree containing a non-positive
branch length surfaces the typed phylogeny error (validation modelled from
the spec, see `Phylogeny_init`). -/
theorem phylogeny_init_nonpositive (t : PhyloTree)
    (h : has_nonpositive_branch t = true) :
    Phylogeny_init t = .error .phyloExc := by
  unfold Phylogeny_init
  rw [h]
  simp

theorem phylogeny_init_nonpositive_witness :
    has_nonpositive_branch (.node [(.leaf 0, -1)]) = true ∧
    Phylogeny_init (.node [(.leaf 0, -1)]) = .error .phyloExc := by
  have h : has_nonpositive_branch (PhyloTree.node [(.leaf 0, -1)]) = true := by
    rw [has_nonpositive_branch, edges_nonpositive]
    norm_num
  exact ⟨h, phylogeny_init_nonpositive _ h⟩

/-- C9: for a non-empty list of block sizes, the run stages are one
rearranging non-refine stage per block size in the given order followed by a
single final "refine" stage reusing the last block size with
`indels := true`; `rearrange` is true exactly at the non-refine stages. -/
theorem make_run_stages_stages (bs : List ℕ) (rr : Bool) (h : bs ≠ []) :
    make_run_stages bs rr
      = (bs.map fun b => ⟨toString b, b, false, false, true, false⟩) ++
        [⟨"refine", bs.getLast h, true, rr, false, true⟩] ∧
    (∀ st ∈ make_run_stages bs rr, st.rearrange = !st.refine) := by
  constructor
  · unfold make_run_stages
    rw [List.getLast?_eq_getLast bs h]
    rfl
  · intro st hst
    unfold make_run_stages at hst
    rcases List.mem_append.mp hst with hst | hst
    · rcases List.mem_map.mp hst with ⟨b, _, rfl⟩
      rfl
    · rw [List.mem_singleton.mp hst]
      rfl

theorem make_run_stages_stages_witness :
    ([5000, 500] : List ℕ) ≠ [] ∧
    make_run_stages [5000, 500] false
      = [⟨"5000", 5000, false, false, true, false⟩,
         ⟨"500", 500, false, false, true, false⟩,
         ⟨"refine", 500, true, false, false, true⟩] :=
  ⟨by decide,
    ((make_run_stages_stages [5000, 500] false (by decide)).1).trans (by decide)⟩

/-! ### Star trees -/

/-- In a star leaf-state mapping with distinct leaf ids, every leaf looks up
its own state. -/
theorem lookup_starLS : ∀ {P : List (ℕ × ℕ)}, (P.map Prod.fst).Nodup →
    ∀ {pr : ℕ × ℕ}, pr ∈ P → (starLS P).lookup pr.1 = some (some pr.2) := by
  intro P
  induction P with
  | nil => intro _ pr h; cases h
  | cons e rest ih =>
      intro hids pr hmem
      rcases e with ⟨i, s⟩
      rw [List.map_cons] at hids
      rcases List.nodup_cons.mp hids with ⟨hnotin, hrest⟩
      rcases List.mem_cons.mp hmem with h | h
      · subst h
        simp [starLS, List.lookup_cons]
      · have hne : pr.1 ≠ i := by
          intro heq
          exact hnotin (heq ▸ List.mem_map.mpr ⟨pr, h, rfl⟩)
        have hlk := ih hrest h
        simp only [starLS, List.map_cons, List.lookup_cons,
          beq_false_of_ne hne]
        exact hlk

/-- Every observed state of a star mapping belongs to `allStates`. -/
theorem mem_allStates_starLS {P : List (ℕ × ℕ)} {pr : ℕ × ℕ} (h : pr ∈ P) :
    some pr.2 ∈ allStates (starLS P) := by
  unfold allStates starLS
  rw [List.map_map]
  exact List.mem_dedup.mpr (List.mem_map.mpr ⟨pr, h, rfl⟩)

/-- Score of the edge list of a star tree: every leaf whose state differs
from the root state `q` contributes one branch transition, so the total is
the number of mismatching leaves times `1 + exp(-mu * max(l, 1e-7))`. -/
theorem edges_star (mu l : ℝ) (P : List (ℕ × ℕ)) (q : Option ℕ) :
    ∀ sub : List (ℕ × ℕ),
      (∀ pr ∈ sub, (starLS P).lookup pr.1 = some (some pr.2)) →
      (∀ pr ∈ sub, (some pr.2) ∈ allStates (starLS P)) →
      edges_score mu (starLS P) (allStates (starLS P))
          (sub.map fun pr => (.leaf pr.1, l)) q
        = ((((sub.filter fun pr => decide (q ≠ some pr.2)).length : ℝ)
            * (1 + Real.exp (-mu * max l 0.0000001)) : ℝ) : WithTop ℝ) := by
  intro sub
  induction sub with
  | nil =>
      intro _ _
      rw [List.map_nil, edges_score]
      norm_num
  | cons pr rest ih =>
      intro hlk hS
      have hA : ((allStates (starLS P)).map fun cs =>
            rec_helper mu (starLS P) (allStates (starLS P)) (.leaf pr.1) cs
              + (branch_score mu q cs l : WithTop ℝ))
          = (allStates (starLS P)).map fun cs =>
              if cs = some pr.2
              then (branch_score mu q (some pr.2) l : WithTop ℝ) else ⊤ := by
        refine List.map_congr_left fun cs _ => ?_
        rw [rec_helper, hlk pr (List.mem_cons_self pr rest)]
        by_cases hcs : cs = some pr.2
        · subst hcs; simp
        · rw [if_neg fun heq => hcs (by injection heq with h2; exact h2.symm),
            if_neg hcs, top_add]
      have hB : branch_score mu q (some pr.2) l
          = if q = some pr.2 then 0
            else 1 + Real.exp (-mu * max l 0.0000001) := by
        by_cases hq : q = some pr.2 <;> simp [branch_score, hq]
      rw [List.map_cons, edges_score, hA,
        listMin_map_ite (hS pr (List.mem_cons_self pr rest)) WithTop.coe_ne_top,
        ih (fun x hx => hlk x (List.mem_cons_of_mem pr hx))
          (fun x hx => hS x (List.mem_cons_of_mem pr hx)),
        hB, ← WithTop.coe_add, WithTop.coe_inj]
      by_cases hq : q = some pr.2
      · rw [if_pos hq]
        have hfil : List.filter (fun x => decide (q ≠ some x.2)) (pr :: rest)
            = List.filter (fun x => decide (q ≠ some x.2)) rest := by
          rw [List.filter_cons_of_neg]
          simp [hq]
        rw [hfil]
        ring
      · rw [if_neg hq]
        have hfil : List.filter (fun x => decide (q ≠ some x.2)) (pr :: rest)
            = pr :: List.filter (fun x => decide (q ≠ some x.2)) rest := by
          rw [List.filter_cons_of_pos]
          simp [hq]
        rw [hfil, List.length_cons]
        push_cast
        ring

/-- The parsimony score of a star tree with uniform branch length `l`: the
minimum over root states of (number of leaves whose state differs from the
root state) times `1 + exp(-mu * max(l, 1e-7))`. -/
theorem estimate_star_count (mu l : ℝ) (P : List (ℕ × ℕ))
    (hids : (P.map Prod.fst).Nodup) :
    estimate_tree mu (starLS P) (starTree l P)
      = listMin ((allStates (starLS P)).map fun q =>
          ((((P.filter fun pr => decide (q ≠ some pr.2)).length : ℝ)
            * (1 + Real.exp (-mu * max l 0.0000001)) : ℝ) : WithTop ℝ)) := by
  unfold estimate_tree starTree
  refine congrArg listMin (List.map_congr_left fun q _ => ?_)
  rw [rec_helper]
  exact edges_star mu l P q P (fun pr h => lookup_starLS hids h)
    (fun pr h => mem_allStates_starLS h)

/-- With pairwise-distinct states, exactly one leaf matches any observed
state, so the mismatch count is the number of leaves minus one. -/
theorem star_filter_length : ∀ (P : List (ℕ × ℕ)) (s₀ : ℕ),
    (P.map Prod.snd).Nodup → s₀ ∈ P.map Prod.snd →
    (P.filter fun pr => decide ((some s₀ : Option ℕ) ≠ some pr.2)).length
      = P.length - 1 := by
  intro P
  induction P with
  | nil => intro _ _ h; cases h
  | cons pr rest ih =>
      intro s₀ hnd hmem
      rw [List.map_cons] at hnd hmem
      rcases List.nodup_cons.mp hnd with ⟨hnotin, hrest⟩
      by_cases hs : s₀ = pr.2
      · subst hs
        rw [List.filter_cons_of_neg (by simp)]
        have hall : ∀ x ∈ rest,
            (decide ((some pr.2 : Option ℕ) ≠ some x.2)) = true := by
          intro x hx
          have hxne : x.2 ≠ pr.2 := by
            intro heq
            exact hnotin (heq ▸ List.mem_map.mpr ⟨x, hx, rfl⟩)
          simp [Ne.symm hxne]
        rw [List.filter_eq_self.mpr hall, List.length_cons, Nat.add_sub_cancel]
      · have hmem' : s₀ ∈ rest.map Prod.snd := by
          rcases List.mem_cons.mp hmem with h | h
          · exact absurd h hs
          · exact h
        have hpos : 1 ≤ rest.length := by
          rcases List.mem_map.mp hmem' with ⟨x, hx, _⟩
          calc 1 ≤ 1 := le_refl 1
          _ ≤ rest.length := (List.length_pos.mpr (List.ne_nil_of_mem hx))
        rw [List.filter_cons_of_pos (by simp [hs]), List.length_cons,
          ih s₀ hrest hmem', List.length_cons]
        omega

/-- C4 (amended): for a star tree with uniform branch length `l` whose
leaves observe pairwise-distinct non-null states, `estimate_tree` returns
`(k - 1) * (1 + exp(-mu * max(l, 1e-7)))` where `k` is the number of
distinct leaf states (equal to the number of leaves). -/
theorem estimate_star (mu l : ℝ) (P : List (ℕ × ℕ)) (hne : P ≠ [])
    (hids : (P.map Prod.fst).Nodup) (hsts : (P.map Prod.snd).Nodup) :
    (allStates (starLS P)).length = P.length ∧
    estimate_tree mu (starLS P) (starTree l P)
      = (((((allStates (starLS P)).length - 1 : ℕ) : ℝ)
          * (1 + Real.exp (-mu * max l 0.0000001)) : ℝ) : WithTop ℝ) := by
  have hSeq : allStates (starLS P) = P.map fun pr => (some pr.2 : Option ℕ) := by
    have hforms : (starLS P).map Prod.snd = (P.map Prod.snd).map Option.some := by
      unfold starLS
      rw [List.map_map, List.map_map]
      rfl
    unfold allStates
    rw [hforms, List.dedup_eq_self.mpr (hsts.map (Option.some_injective ℕ)),
      List.map_map]
    rfl
  constructor
  · rw [hSeq, List.length_map]
  · rw [estimate_star_count mu l P hids, hSeq, List.length_map]
    refine listMin_const ?_ ?_
    · simp [hne]
    · intro a ha
      rcases List.mem_map.mp ha with ⟨b, hb, rfl⟩
      rcases List.mem_map.mp hb with ⟨pr, hpr, rfl⟩
      rw [star_filter_length P pr.2 hsts (List.mem_map.mpr ⟨pr, hpr, rfl⟩)]

theorem estimate_star_witness :
    (([(0, 0), (1, 1)] : List (ℕ × ℕ)) ≠ [] ∧
      (([(0, 0), (1, 1)] : List (ℕ × ℕ)).map Prod.fst).Nodup ∧
      (([(0, 0), (1, 1)] : List (ℕ × ℕ)).map Prod.snd).Nodup) ∧
    ((allStates (starLS [(0, 0), (1, 1)])).length = [(0, 0), (1, 1)].length ∧
      estimate_tree 1 (starLS [(0, 0), (1, 1)]) (starTree 1 [(0, 0), (1, 1)])
        = (((((allStates (starLS [(0, 0), (1, 1)])).length - 1 : ℕ) : ℝ)
            * (1 + Real.exp (-1 * max 1 0.0000001)) : ℝ) : WithTop ℝ)) :=
  ⟨⟨by decide, by decide, by decide⟩,
    estimate_star 1 1 [(0, 0), (1, 1)] (by decide) (by decide) (by decide)⟩

/-- C4 (counterexample): on the star tree with four leaves, uniform branch
length 1 and leaf states 0, 0, 1, 1 there are k = 2 distinct leaf states,
yet the parsimony score is twice (not once) the branch cost, so the claimed
formula `(k - 1) * (1 + exp(-mu * l))` does not hold. -/
theorem star_counterexample :
    (allStates (starLS cexPairs)).length = 2 ∧
    estimate_tree (phylo_mu (starTree 1 cexPairs)) (starLS cexPairs)
        (starTree 1 cexPairs)
      ≠ (((((allStates (starLS cexPairs)).length - 1 : ℕ) : ℝ)
          * (1 + Real.exp (-(phylo_mu (starTree 1 cexPairs)) * 1)) : ℝ)
            : WithTop ℝ) := by
  refine ⟨by decide, fun hcontra => ?_⟩
  rw [estimate_star_count (phylo_mu (starTree 1 cexPairs)) 1 cexPairs (by decide),
    show max (1 : ℝ) 0.0000001 = 1 from max_eq_left (by norm_num),
    show allStates (starLS cexPairs) = [some 0, some 1] from by decide]
    at hcontra
  rw [List.map_cons, List.map_cons, List.map_nil, listMin_cons, listMin_cons,
    listMin_nil, min_eq_left le_top,
    show ((cexPairs.filter fun pr =>
      decide ((some 0 : Option ℕ) ≠ some pr.2)).length : ℝ) = 2 by norm_num [cexPairs],
    show ((cexPairs.filter fun pr =>
      decide ((some 1 : Option ℕ) ≠ some pr.2)).length : ℝ) = 2 by norm_num [cexPairs],
    min_self, show (([some 0, some 1] : List (Option ℕ)).length - 1 : ℕ) = 1 from rfl,
    WithTop.coe_inj] at hcontra
  have hexp := Real.exp_pos (-phylo_mu (starTree 1 cexPairs))
  norm_num at hcontra
  linarith

/-- C10: contrary to the claim, `make_overlap_graph` never surfaces a typed
error: when the external binary is missing, or when the subprocess
invocation fails, it logs and returns the value `False` normally. -/
theorem make_overlap_graph_no_raise :
    make_overlap_graph false true = .ok false ∧
    make_overlap_graph false false = .ok false ∧
    make_overlap_graph true false = .ok false ∧
    (∀ tf so : Bool, ∀ e : PyError, make_overlap_graph tf so ≠ .error e) := by
  refine ⟨rfl, rfl, rfl, fun tf so e => ?_⟩
  rcases tf <;> rcases so <;> simp [make_overlap_graph]
